import Mathlib

/-!
Verification of the Hangman turn-rotation and scoring state machine.

Shallow embedding of the game engine in `src/unnamed/part_000` (the canonical
game screen; `src/app/page.tsx` is an older near-duplicate that differs in the
hint-reveal cap, 3 instead of 4, and in the handling of a correct letter whose
occurrences are all revealed).  React `useState` variables become fields of
`GameState`; each event handler becomes a function `GameState → GameState`.
`setTimeout` calls are modelled by appending a `Timer` tag to a `pending` list;
the source never stores a timeout handle and never calls `clearTimeout`, so
nothing in the model ever removes a pending timer except the event loop firing
it (`fireTimer`).  Randomness (`Math.random()`) is modelled by an explicit list
of draws.
-/

/-- A row of the `words` table: `{ id, word, points }`.  The word is kept as a
list of characters (the source works with `word.split("")`). -/
structure GameWord where
  id : Nat
  word : List Char
  points : Nat
deriving Repr, DecidableEq

/-- The phase: the `gameState` React variable: `"playing" | "won" | "lost" | "finished" | "loading"`. -/
inductive Phase where
  | playing
  | won
  | lost
  | finished
  | loading
deriving Repr, DecidableEq

/-- A scheduled `setTimeout` callback: the auto-pass scheduled two time units
after the guess that exhausts the wrong-guess budget, the next-word advance
scheduled after a win, and the next-word advance scheduled after a loss. -/
inductive Timer where
  | autoPass
  | advanceAfterWin
  | advanceAfterLost
deriving Repr, DecidableEq

/-- The React state of `HangmanGame` in `src/unnamed/part_000` (gameplay fields
only; purely presentational fields such as `inputLetter`, `sidebarOpen` and
`showRoundStartLeaderboard` are omitted).  `teams` keeps only the team ids, in
database order; `gameScores` is the list of `(team_id, points)` rows. -/
structure GameState where
  teams : List Nat
  words : List GameWord
  gameScores : List (Nat × Nat)
  currentWordIndex : Nat
  currentTeam : Nat
  originalTeamForQuestion : Nat
  guessedLetters : List Char
  revealedPositions : List Nat
  defaultRevealedPositions : List Nat
  wrongGuesses : Nat
  phase : Phase
  teamsAttempted : List Nat
  isPassedQuestion : Bool
  pending : List Timer
deriving Repr, DecidableEq

/-- The constant `maxWrongGuesses = 4`. -/
def maxWrongGuesses : Nat := 4

/-- The generation loop `while (positions.length < numToReveal)` of
`generateDefaultRevealedPositions`.  Each random draw `d` stands for one
`Math.floor(Math.random() * wordLength)` evaluation, taken modulo the word
length; the loop is fuelled by the list of draws and returns `none` when the
draws run out before the loop exits (the source would keep drawing). -/
def genLoop (wordLength numToReveal : Nat) : List Nat → List Nat → Option (List Nat)
  | draws, positions =>
    if numToReveal ≤ positions.length then some positions
    else
      match draws with
      | [] => none
      | d :: rest =>
        if d % wordLength ∈ positions then genLoop wordLength numToReveal rest positions
        else genLoop wordLength numToReveal rest (positions ++ [d % wordLength])

/-- Function `generateDefaultRevealedPositions` from `src/unnamed/part_000`:
`numToReveal = Math.min(4, Math.floor(wordLength * 0.3))`, random distinct
positions, sorted ascending.  `Math.floor(wordLength * 0.3)` agrees with the
natural-number `wordLength * 3 / 10` for every length a `VARCHAR(50)` word can
have.  (`src/app/page.tsx` uses `Math.min(3, …)` instead.) -/
def generateDefaultRevealedPositions (wordLength : Nat) (draws : List Nat) :
    Option (List Nat) :=
  (genLoop wordLength (min 4 (wordLength * 3 / 10)) draws []).map
    (fun positions => positions.insertionSort (· ≤ ·))

/-- Function `resetGame`: clears the guess log, the guessed reveals and the wrong-guess
counter and re-enters `playing`.  It does NOT touch `defaultRevealedPositions`,
and — since the source stores no timeout handle — it cancels nothing. -/
def resetGame (s : GameState) : GameState :=
  { s with guessedLetters := [], revealedPositions := [], wrongGuesses := 0,
           phase := .playing }

/-- The lookup `gameScores.find((score) => score.team_id === teamId)?.points || 0`. -/
def scoreOf (scores : List (Nat × Nat)) (teamId : Nat) : Nat :=
  ((scores.find? (fun sc => sc.1 == teamId)).map Prod.snd).getD 0

/-- Function `updateGameScore`: reads the current score of `teamId`, adds `points`, and
maps the new total over every row with that `team_id`. -/
def updateGameScore (scores : List (Nat × Nat)) (teamId points : Nat) :
    List (Nat × Nat) :=
  let newPoints := scoreOf scores teamId + points
  scores.map (fun sc => if sc.1 == teamId then (sc.1, newPoints) else sc)

/-- The word currently in play, `words[currentWordIndex]` (out-of-range access
is modelled by a default row; theorems always assume the index is in range). -/
def currentGameWord (s : GameState) : GameWord :=
  s.words.getD s.currentWordIndex ⟨0, [], 0⟩

/-- The rotation loop `while (newTeamsAttempted.includes(nextTeam))` of
`nextTeamOrWord`, fuelled (the source loops forever when every team index is
attempted; with fuel it returns the last candidate, a case that is unreachable
whenever fewer than four teams are attempted). -/
def findNextTeam (attempted : List Nat) : Nat → Nat → Nat
  | 0, t => t
  | fuel + 1, t => if t ∈ attempted then findNextTeam attempted fuel ((t + 1) % 4) else t

/-- Function `nextTeamOrWord` (also the body of `passQuestion`): appends `currentTeam`
to `teamsAttempted`; if all four teams have now attempted, shows the answer
(`lost`) and schedules the word advance, otherwise rotates to the next
unattempted team, marks the question as passed, and resets the round. -/
def nextTeamOrWord (s : GameState) : GameState :=
  let newTeamsAttempted := s.teamsAttempted ++ [s.currentTeam]
  if 4 ≤ newTeamsAttempted.length then
    { s with teamsAttempted := newTeamsAttempted, phase := .lost,
             pending := s.pending ++ [Timer.advanceAfterLost] }
  else
    let nextTeam := findNextTeam newTeamsAttempted 4 ((s.currentTeam + 1) % 4)
    resetGame { s with teamsAttempted := newTeamsAttempted,
                       currentTeam := nextTeam, isPassedQuestion := true }

/-- Function `passQuestion` simply delegates to `nextTeamOrWord`. -/
def passQuestion (s : GameState) : GameState :=
  nextTeamOrWord s

/-- The body of the `setTimeout` callbacks scheduled on a win and on a loss
(the two are textually identical in the source, up to the delay): advance to
the next word, reassign teams by the fixed rotation, clear the attempt set and
the passed flag and reset the round — or finish the game.  Advancing the word
re-runs the `useEffect` that regenerates the hint tiles; `newDefaults` is the
outcome of that regeneration. -/
def advanceWord (newDefaults : List Nat) (s : GameState) : GameState :=
  if s.currentWordIndex + 1 < s.words.length then
    resetGame { s with
      currentWordIndex := s.currentWordIndex + 1,
      currentTeam := (s.currentWordIndex + 1) % 4,
      originalTeamForQuestion := (s.currentWordIndex + 1) % 4,
      teamsAttempted := [],
      isPassedQuestion := false,
      defaultRevealedPositions := newDefaults }
  else
    { s with phase := .finished }

/-- The list `wordArray.map((char, index) => (char === letter ? index : -1)).filter((pos) => pos !== -1)`:
the index positions of `letter` in `word`, in increasing order. -/
def letterPositions (word : List Char) (letter : Char) : List Nat :=
  (List.range word.length).filter (fun i => word.getD i ' ' == letter)

/-- The list `letterPositions.filter((pos) => !revealedPositions.includes(pos) &&
!defaultRevealedPositions.includes(pos))`: the occurrences of `letter` not yet
shown, in increasing order. -/
def unrevealedOccurrences (s : GameState) (letter : Char) : List Nat :=
  (letterPositions (currentGameWord s).word letter).filter (fun pos =>
    !(s.revealedPositions.contains pos) && !(s.defaultRevealedPositions.contains pos))

/-- The wrong-guess step shared by the letter-not-in-word branch and the
all-occurrences-shown branch of `guessLetter`: increment `wrongGuesses` and,
when the new count reaches `maxWrongGuesses`, schedule the auto-pass
(`setTimeout(passQuestion, 2000)`). -/
def wrongGuessStep (s : GameState) : GameState :=
  { s with wrongGuesses := s.wrongGuesses + 1,
           pending := if maxWrongGuesses ≤ s.wrongGuesses + 1
                      then s.pending ++ [Timer.autoPass] else s.pending }

/-- Function `guessLetter` from `src/unnamed/part_000`, handling one input character
(the handler returns early on empty input, which a `Char` cannot be).  The
input is uppercased, always logged, and then either counted as a wrong guess
(letter not in word, or every occurrence already shown) or used to reveal the
single lowest unrevealed occurrence, with the win check and scoring. -/
def guessLetter (s : GameState) (input : Char) : GameState :=
  let letter := input.toUpper
  let s1 := { s with guessedLetters := s.guessedLetters ++ [letter] }
  if letter ∈ (currentGameWord s).word then
    match unrevealedOccurrences s letter with
    | [] => wrongGuessStep s1
    | pos :: _ =>
      let newRevealedPositions := s.revealedPositions ++ [pos]
      if (newRevealedPositions ++ s.defaultRevealedPositions).dedup.length
          = (currentGameWord s).word.length then
        { s1 with revealedPositions := newRevealedPositions, phase := .won,
                  gameScores := updateGameScore s.gameScores
                    (s.teams.getD s.currentTeam 0)
                    (if s.isPassedQuestion then 5 else (currentGameWord s).points),
                  pending := s1.pending ++ [Timer.advanceAfterWin] }
      else
        { s1 with revealedPositions := newRevealedPositions }
  else
    wrongGuessStep s1

/-- The event loop firing one pending `setTimeout` callback: the fired timer is
removed from the pending list and its handler runs on the state current at
firing time.  Nothing else ever removes a pending timer, because the source
never keeps a handle and never calls `clearTimeout`. -/
def fireTimer (newDefaults : List Nat) (s : GameState) (t : Timer) : GameState :=
  let s1 := { s with pending := s.pending.erase t }
  match t with
  | .autoPass => passQuestion s1
  | .advanceAfterWin => advanceWord newDefaults s1
  | .advanceAfterLost => advanceWord newDefaults s1

/-- The union `revealedPositions ∪ defaultRevealedPositions` covers every
letter position of the current word. -/
def covers (s : GameState) : Prop :=
  ∀ i < (currentGameWord s).word.length,
    i ∈ s.revealedPositions ∨ i ∈ s.defaultRevealedPositions

instance (s : GameState) : Decidable (covers s) := by
  unfold covers; infer_instance

/-- A concrete game at the start of its first round: four teams (ids 1–4, all
scores 0), words DOG (10 points) then CAT (10 points), team 0 up, no hint
tiles drawn, nothing guessed yet. -/
def demoState : GameState :=
  { teams := [1, 2, 3, 4]
    words := [⟨1, ['D', 'O', 'G'], 10⟩, ⟨2, ['C', 'A', 'T'], 10⟩]
    gameScores := [(1, 0), (2, 0), (3, 0), (4, 0)]
    currentWordIndex := 0
    currentTeam := 0
    originalTeamForQuestion := 0
    guessedLetters := []
    revealedPositions := []
    defaultRevealedPositions := []
    wrongGuesses := 0
    phase := .playing
    teamsAttempted := []
    isPassedQuestion := false
    pending := [] }

/-- State `demoState` after team 0 guesses the four wrong letters X, Y, Z, W: the
wrong-guess budget is exhausted and the auto-pass is pending. -/
def lockedOutState : GameState :=
  guessLetter (guessLetter (guessLetter (guessLetter demoState 'X') 'Y') 'Z') 'W'

/-! ## Helper lemmas -/

lemma find?_map_update (teamId np : Nat) :
    ∀ scores : List (Nat × Nat), teamId ∈ scores.map Prod.fst →
      (scores.map (fun sc => if sc.1 == teamId then (sc.1, np) else sc)).find?
          (fun sc => sc.1 == teamId) = some (teamId, np)
  | [], h => by simp at h
  | (a, b) :: rest, h => by
    by_cases ha : a = teamId
    · subst ha
      simp [List.find?]
    · have hrest : teamId ∈ rest.map Prod.fst := by
        simp only [List.map_cons, List.mem_cons] at h
        exact h.resolve_left (fun hh => ha hh.symm)
      have hne : (a == teamId) = false := beq_false_of_ne ha
      simp only [List.map_cons, hne, Bool.false_eq_true, if_false]
      rw [List.find?_cons_of_neg _ (by simp [hne])]
      exact find?_map_update teamId np rest hrest

lemma scoreOf_updateGameScore (scores : List (Nat × Nat)) (teamId pts : Nat)
    (h : teamId ∈ scores.map Prod.fst) :
    scoreOf (updateGameScore scores teamId pts) teamId = scoreOf scores teamId + pts := by
  simp only [updateGameScore, scoreOf]
  rw [find?_map_update _ _ _ h]
  rfl

/-- The completion test of `guessLetter` — comparing the number of distinct
captured positions with the word length — is exactly coverage of every
position, provided every captured position is in range. -/
lemma dedup_length_eq_iff (l : List Nat) (n : Nat) (hb : ∀ p ∈ l, p < n) :
    l.dedup.length = n ↔ ∀ i < n, i ∈ l := by
  have hcard : l.toFinset.card = l.dedup.length := List.card_toFinset l
  have hsub : l.toFinset ⊆ Finset.range n := by
    intro x hx
    exact Finset.mem_range.2 (hb x (List.mem_toFinset.1 hx))
  constructor
  · intro hlen i hi
    have hcard2 : (Finset.range n).card ≤ l.toFinset.card := by
      rw [hcard, hlen, Finset.card_range]
    have := Finset.eq_of_subset_of_card_le hsub hcard2
    have hmem : i ∈ l.toFinset := by
      rw [this]
      exact Finset.mem_range.2 hi
    exact List.mem_toFinset.1 hmem
  · intro hcov
    have hsub2 : Finset.range n ⊆ l.toFinset := by
      intro x hx
      exact List.mem_toFinset.2 (hcov x (Finset.mem_range.1 hx))
    have : l.toFinset = Finset.range n :=
      Finset.Subset.antisymm hsub hsub2
    rw [← hcard, this, Finset.card_range]

/-- The first element of `(List.range n).filter p` is the least number below
`n` satisfying `p`. -/
lemma filter_range_cons {p : Nat → Bool} :
    ∀ {n q : Nat} {rest : List Nat},
      (List.range n).filter p = q :: rest →
      q < n ∧ p q = true ∧ ∀ r < q, p r = false := by
  intro n
  induction n with
  | zero => intro q rest h; simp at h
  | succ n ih =>
    intro q rest h
    rw [List.range_succ, List.filter_append] at h
    cases hf : (List.range n).filter p with
    | cons q' rest' =>
      rw [hf, List.cons_append] at h
      obtain ⟨hq, _⟩ := List.cons.injEq .. ▸ h
      obtain ⟨h1, h2, h3⟩ := ih hf
      exact ⟨by omega, hq ▸ h2, fun r hr => h3 r (hq ▸ hr)⟩
    | nil =>
      rw [hf, List.nil_append] at h
      have hnone : ∀ r < n, p r = false := by
        intro r hr
        have := List.filter_eq_nil_iff.1 hf r (List.mem_range.2 hr)
        simpa using this
      by_cases hpn : p n
      · rw [List.filter_cons, if_pos (by simpa using hpn)] at h
        simp only [List.filter_nil] at h
        obtain ⟨hq, _⟩ := List.cons.injEq .. ▸ h
        exact ⟨by omega, hq ▸ hpn, fun r hr => hnone r (by omega)⟩
      · rw [List.filter_cons, if_neg (by simpa using hpn), List.filter_nil] at h
        simp at h

lemma char_toNat_ofNat {n : Nat} (h : n < 55296) : (Char.ofNat n).toNat = n := by
  have hv : n.isValidChar := Or.inl h
  rw [Char.ofNat, dif_pos hv]
  rfl

lemma toUpper_eq_self_of_not_lower (c : Char) (h : ¬ (97 ≤ c.toNat ∧ c.toNat ≤ 122)) :
    c.toUpper = c := by
  rw [Char.toUpper, if_neg h]

/-- Uppercasing is idempotent on the basic latin range the source works in. -/
lemma toUpper_toUpper (c : Char) : c.toUpper.toUpper = c.toUpper := by
  by_cases hl : 97 ≤ c.toNat ∧ c.toNat ≤ 122
  · have hup : c.toUpper = Char.ofNat (c.toNat - 32) := by
      rw [Char.toUpper, if_pos hl]
    have htn : (Char.ofNat (c.toNat - 32)).toNat = c.toNat - 32 :=
      char_toNat_ofNat (by omega)
    rw [hup]
    apply toUpper_eq_self_of_not_lower
    rw [htn]
    omega
  · rw [toUpper_eq_self_of_not_lower c hl, toUpper_eq_self_of_not_lower c hl]

/-- A character that is not a basic latin letter is fixed by `toUpperCase`. -/
lemma toUpper_eq_self_of_not_alpha (c : Char) (h : c.isAlpha = false) :
    c.toUpper = c := by
  apply toUpper_eq_self_of_not_lower
  intro hcon
  have : c.isLower = true := by
    unfold Char.isLower
    have h97 : (97 : UInt32) ≤ c.val := hcon.1
    have h122 : c.val ≤ (122 : UInt32) := hcon.2
    simp [h97, h122]
  unfold Char.isAlpha at h
  rw [this] at h
  simp at h

/-- An uppercased non-letter cannot occur in an all-letters word. -/
lemma toUpper_not_mem_of_not_alpha (c : Char) (word : List Char)
    (hc : c.isAlpha = false) (hw : ∀ ch ∈ word, ch.isAlpha = true) :
    c.toUpper ∉ word := by
  rw [toUpper_eq_self_of_not_alpha c hc]
  intro hmem
  rw [hw c hmem] at hc
  simp at hc

/-- Branch lemma: the guessed letter does not occur in the word. -/
lemma guessLetter_of_not_mem (s : GameState) (c : Char)
    (h : c.toUpper ∉ (currentGameWord s).word) :
    guessLetter s c =
      wrongGuessStep { s with guessedLetters := s.guessedLetters ++ [c.toUpper] } := by
  simp only [guessLetter]
  rw [if_neg h]

/-- Branch lemma: the letter occurs, but every occurrence is already shown. -/
lemma guessLetter_of_all_revealed (s : GameState) (c : Char)
    (hm : c.toUpper ∈ (currentGameWord s).word)
    (h : unrevealedOccurrences s c.toUpper = []) :
    guessLetter s c =
      wrongGuessStep { s with guessedLetters := s.guessedLetters ++ [c.toUpper] } := by
  simp only [guessLetter]
  rw [if_pos hm, h]

/-- Branch lemma: the letter occurs and `q` is its first unrevealed occurrence. -/
lemma guessLetter_of_unrevealed (s : GameState) (c : Char) (q : Nat) (rest : List Nat)
    (hm : c.toUpper ∈ (currentGameWord s).word)
    (h : unrevealedOccurrences s c.toUpper = q :: rest) :
    guessLetter s c =
      if ((s.revealedPositions ++ [q]) ++ s.defaultRevealedPositions).dedup.length
          = (currentGameWord s).word.length then
        { s with guessedLetters := s.guessedLetters ++ [c.toUpper],
                 revealedPositions := s.revealedPositions ++ [q], phase := .won,
                 gameScores := updateGameScore s.gameScores
                   (s.teams.getD s.currentTeam 0)
                   (if s.isPassedQuestion then 5 else (currentGameWord s).points),
                 pending := s.pending ++ [Timer.advanceAfterWin] }
      else
        { s with guessedLetters := s.guessedLetters ++ [c.toUpper],
                 revealedPositions := s.revealedPositions ++ [q] } := by
  simp only [guessLetter]
  rw [if_pos hm, h]

lemma mem_unrevealedOccurrences {s : GameState} {letter : Char} {p : Nat} :
    p ∈ unrevealedOccurrences s letter ↔
      p < (currentGameWord s).word.length ∧
      (currentGameWord s).word.getD p ' ' = letter ∧
      p ∉ s.revealedPositions ∧ p ∉ s.defaultRevealedPositions := by
  unfold unrevealedOccurrences letterPositions
  simp only [List.mem_filter, List.mem_range]
  constructor
  · rintro ⟨⟨hp, hocc⟩, hunrev⟩
    simp only [Bool.and_eq_true, Bool.not_eq_true'] at hunrev
    refine ⟨hp, by simpa using hocc, ?_, ?_⟩
    · simpa using hunrev.1
    · simpa using hunrev.2
  · rintro ⟨hp, hocc, hr, hd⟩
    refine ⟨⟨hp, by simpa using hocc⟩, ?_⟩
    simp only [Bool.and_eq_true, Bool.not_eq_true']
    exact ⟨by simpa using hr, by simpa using hd⟩

/-- The head of `unrevealedOccurrences` is the lowest-index unrevealed
occurrence of the letter. -/
lemma unrevealedOccurrences_head {s : GameState} {letter : Char} {q : Nat}
    {rest : List Nat} (h : unrevealedOccurrences s letter = q :: rest) :
    (q < (currentGameWord s).word.length ∧
      (currentGameWord s).word.getD q ' ' = letter ∧
      q ∉ s.revealedPositions ∧ q ∉ s.defaultRevealedPositions) ∧
    ∀ r < q, (currentGameWord s).word.getD r ' ' = letter →
      r ∈ s.revealedPositions ∨ r ∈ s.defaultRevealedPositions := by
  have hq : q ∈ unrevealedOccurrences s letter := by rw [h]; exact List.mem_cons_self q rest
  refine ⟨mem_unrevealedOccurrences.1 hq, ?_⟩
  unfold unrevealedOccurrences letterPositions at h
  rw [List.filter_filter] at h
  obtain ⟨-, -, hmin⟩ := filter_range_cons h
  intro r hr hocc
  have hmr := hmin r hr
  by_contra hcon
  push_neg at hcon
  simp [hcon.1, hcon.2] at hmr
  exact hmr (by simpa using hocc)

lemma covers_congr {s t : GameState} (hw : t.words = s.words)
    (hi : t.currentWordIndex = s.currentWordIndex)
    (hr : t.revealedPositions = s.revealedPositions)
    (hd : t.defaultRevealedPositions = s.defaultRevealedPositions) :
    covers t ↔ covers s := by
  unfold covers currentGameWord
  rw [hw, hi, hr, hd]

/-! ## Claim theorems -/

/-- C1: in phase `Playing`, `guessLetter` moves the round to `Won` exactly when
the union of `revealedPositions` and `defaultRevealedPositions` covers every
letter position immediately after the guess is processed, and on that
transition the current team's score grows by the word's base points, or by 5
when the question was passed. -/
theorem guessLetter_won_iff_covered (s : GameState) (c : Char)
    (hphase : s.phase = Phase.playing)
    (hbound : ∀ p ∈ s.revealedPositions ++ s.defaultRevealedPositions,
      p < (currentGameWord s).word.length)
    (hnot : ¬ covers s)
    (hteam : s.teams.getD s.currentTeam 0 ∈ s.gameScores.map Prod.fst) :
    ((guessLetter s c).phase = Phase.won ↔ covers (guessLetter s c)) ∧
    ((guessLetter s c).phase = Phase.won →
      scoreOf (guessLetter s c).gameScores (s.teams.getD s.currentTeam 0) =
        scoreOf s.gameScores (s.teams.getD s.currentTeam 0) +
          (if s.isPassedQuestion then 5 else (currentGameWord s).points)) := by
  have playingCase :
      ∀ t : GameState, t = wrongGuessStep
          { s with guessedLetters := s.guessedLetters ++ [c.toUpper] } →
        ((t.phase = Phase.won ↔ covers t) ∧
          (t.phase = Phase.won →
            scoreOf t.gameScores (s.teams.getD s.currentTeam 0) =
              scoreOf s.gameScores (s.teams.getD s.currentTeam 0) +
                (if s.isPassedQuestion then 5 else (currentGameWord s).points))) := by
    intro t ht
    have hph : t.phase = s.phase := by rw [ht]; simp [wrongGuessStep]
    have hcov : covers t ↔ covers s := by
      apply covers_congr <;> (rw [ht]; simp [wrongGuessStep])
    constructor
    · rw [hph, hphase, hcov]
      constructor
      · intro hw; exact absurd hw (by simp)
      · intro hc; exact absurd hc hnot
    · intro hw
      rw [hph, hphase] at hw
      exact absurd hw (by simp)
  by_cases hm : c.toUpper ∈ (currentGameWord s).word
  · cases hu : unrevealedOccurrences s c.toUpper with
    | nil =>
      rw [guessLetter_of_all_revealed s c hm hu]
      exact playingCase _ rfl
    | cons q rest =>
      obtain ⟨⟨hqlen, -, -, -⟩, -⟩ := unrevealedOccurrences_head hu
      have hbound2 : ∀ p ∈ (s.revealedPositions ++ [q]) ++ s.defaultRevealedPositions,
          p < (currentGameWord s).word.length := by
        intro p hp
        rcases List.mem_append.1 hp with hp1 | hp2
        · rcases List.mem_append.1 hp1 with hp3 | hp4
          · exact hbound p (List.mem_append.2 (Or.inl hp3))
          · rw [List.mem_singleton.1 hp4]; exact hqlen
        · exact hbound p (List.mem_append.2 (Or.inr hp2))
      rw [guessLetter_of_unrevealed s c q rest hm hu]
      by_cases hcomp : ((s.revealedPositions ++ [q]) ++ s.defaultRevealedPositions).dedup.length
          = (currentGameWord s).word.length
      · rw [if_pos hcomp]
        constructor
        · constructor
          · intro _
            intro i hi
            have := (dedup_length_eq_iff _ _ hbound2).1 hcomp i (by simpa [currentGameWord] using hi)
            simp only [List.mem_append, List.mem_singleton] at this ⊢
            tauto
          · intro _; rfl
        · intro _
          exact scoreOf_updateGameScore s.gameScores _ _ hteam
      · rw [if_neg hcomp]
        constructor
        · constructor
          · intro hw; exact absurd hw (by simp [hphase])
          · intro hc
            exfalso
            apply hcomp
            rw [dedup_length_eq_iff _ _ hbound2]
            intro i hi
            have := hc i (by simpa [currentGameWord] using hi)
            simp only [List.mem_append, List.mem_singleton] at this ⊢
            tauto
        · intro hw; exact absurd hw (by simp [hphase])
  · rw [guessLetter_of_not_mem s c hm]
    exact playingCase _ rfl

/-- State `demoState` on its second word CAT with positions 0 and 1 already
revealed: one guess away from a win. -/
def nearWinState : GameState :=
  { demoState with currentWordIndex := 1, revealedPositions := [0, 1] }

/-- Witness for C1 at a concrete input: guessing T on CAT with C and A shown
wins the round and pays team id 1 the word's 10 base points. -/
theorem guessLetter_won_iff_covered_witness :
    ((guessLetter nearWinState 'T').phase = Phase.won ↔
      covers (guessLetter nearWinState 'T')) ∧
    ((guessLetter nearWinState 'T').phase = Phase.won →
      scoreOf (guessLetter nearWinState 'T').gameScores
          (nearWinState.teams.getD nearWinState.currentTeam 0) =
        scoreOf nearWinState.gameScores
            (nearWinState.teams.getD nearWinState.currentTeam 0) +
          (if nearWinState.isPassedQuestion then 5
           else (currentGameWord nearWinState).points)) :=
  guessLetter_won_iff_covered nearWinState 'T' (by decide) (by decide)
    (by decide) (by decide)

/-- C2: every `passQuestion` call appends the current team to
`attemptedTeams`, growing it by exactly one; when its size reaches the team
count (4) the phase becomes `Lost` and the word advance is scheduled, and that
advance either moves to word `wordIndex + 1` with
`assignedTeam = currentTeam = (wordIndex + 1) mod 4`, cleared `attemptedTeams`
and `isPassedQuestion` and a fresh round, or finishes the game when
`wordIndex + 1` equals the word count. -/
theorem passQuestion_attempts_and_advance (s : GameState)
    (hidx : s.currentWordIndex < s.words.length) :
    (passQuestion s).teamsAttempted.length = s.teamsAttempted.length + 1 ∧
    (4 ≤ s.teamsAttempted.length + 1 →
      (passQuestion s).phase = Phase.lost ∧
      Timer.advanceAfterLost ∈ (passQuestion s).pending) ∧
    (∀ newDefaults, s.currentWordIndex + 1 < s.words.length →
      (advanceWord newDefaults (passQuestion s)).currentWordIndex
          = s.currentWordIndex + 1 ∧
      (advanceWord newDefaults (passQuestion s)).currentTeam
          = (s.currentWordIndex + 1) % 4 ∧
      (advanceWord newDefaults (passQuestion s)).originalTeamForQuestion
          = (s.currentWordIndex + 1) % 4 ∧
      (advanceWord newDefaults (passQuestion s)).teamsAttempted = [] ∧
      (advanceWord newDefaults (passQuestion s)).isPassedQuestion = false ∧
      (advanceWord newDefaults (passQuestion s)).phase = Phase.playing ∧
      (advanceWord newDefaults (passQuestion s)).guessedLetters = [] ∧
      (advanceWord newDefaults (passQuestion s)).revealedPositions = [] ∧
      (advanceWord newDefaults (passQuestion s)).wrongGuesses = 0) ∧
    (∀ newDefaults, s.currentWordIndex + 1 = s.words.length →
      (advanceWord newDefaults (passQuestion s)).phase = Phase.finished) := by
  have hlen : (s.teamsAttempted ++ [s.currentTeam]).length
      = s.teamsAttempted.length + 1 := by simp
  have hkeep : (passQuestion s).currentWordIndex = s.currentWordIndex ∧
      (passQuestion s).words = s.words := by
    unfold passQuestion nextTeamOrWord
    by_cases h4 : 4 ≤ (s.teamsAttempted ++ [s.currentTeam]).length
    · rw [if_pos h4]; exact ⟨rfl, rfl⟩
    · rw [if_neg h4]; simp [resetGame]
  refine ⟨?_, ?_, ?_, ?_⟩
  · unfold passQuestion nextTeamOrWord
    by_cases h4 : 4 ≤ (s.teamsAttempted ++ [s.currentTeam]).length
    · rw [if_pos h4]; simpa using hlen
    · rw [if_neg h4]; simp [resetGame]
  · intro h4
    have h4' : 4 ≤ (s.teamsAttempted ++ [s.currentTeam]).length := by
      rw [hlen]; exact h4
    unfold passQuestion nextTeamOrWord
    rw [if_pos h4']
    exact ⟨rfl, by simp⟩
  · intro newDefaults hlt
    unfold advanceWord
    rw [hkeep.1, hkeep.2, if_pos hlt]
    simp [resetGame]
  · intro newDefaults heq
    unfold advanceWord
    rw [hkeep.1, hkeep.2, if_neg (by omega)]

/-- State `demoState` with three other teams already failed on word 0: the next pass
is the fourth and last. -/
def allTriedState : GameState :=
  { demoState with teamsAttempted := [1, 2, 3] }

/-- The same situation on the final word: the next loss ends the game. -/
def lastWordState : GameState :=
  { demoState with currentWordIndex := 1, teamsAttempted := [1, 2, 3] }

/-- Witness for C2 at concrete inputs: the fourth pass on word 0 loses the
round and schedules the advance, the advance starts word 1 for team 1 with a
fresh round, and the same loss on the last word finishes the game. -/
theorem passQuestion_attempts_and_advance_witness :
    (passQuestion allTriedState).teamsAttempted.length
        = allTriedState.teamsAttempted.length + 1 ∧
    (passQuestion allTriedState).phase = Phase.lost ∧
    Timer.advanceAfterLost ∈ (passQuestion allTriedState).pending ∧
    (advanceWord [] (passQuestion allTriedState)).currentWordIndex
        = allTriedState.currentWordIndex + 1 ∧
    (advanceWord [] (passQuestion allTriedState)).currentTeam
        = (allTriedState.currentWordIndex + 1) % 4 ∧
    (advanceWord [] (passQuestion allTriedState)).teamsAttempted = [] ∧
    (advanceWord [] (passQuestion allTriedState)).isPassedQuestion = false ∧
    (advanceWord [] (passQuestion allTriedState)).phase = Phase.playing ∧
    (advanceWord [] (passQuestion lastWordState)).phase = Phase.finished := by
  have h1 := passQuestion_attempts_and_advance allTriedState (by decide)
  have h2 := passQuestion_attempts_and_advance lastWordState (by decide)
  obtain ⟨a1, a2, a3, -⟩ := h1
  obtain ⟨hlost, hpend⟩ := a2 (by decide)
  obtain ⟨b1, b2, -, b4, b5, b6, -, -, -⟩ := a3 [] (by decide)
  exact ⟨a1, hlost, hpend, b1, b2, b4, b5, b6, h2.2.2.2 [] (by decide)⟩

lemma exists_unattempted (att : List Nat) (h : att.length < 4) :
    ∃ t, t < 4 ∧ t ∉ att := by
  by_contra hc
  push_neg at hc
  have hsub : Finset.range 4 ⊆ att.toFinset := by
    intro t ht
    exact List.mem_toFinset.2 (hc t (Finset.mem_range.1 ht))
  have h1 := Finset.card_le_card hsub
  rw [Finset.card_range] at h1
  have h2 := att.toFinset_card_le
  omega

lemma exists_shift (att : List Nat) (start : Nat) (hs : start < 4)
    (h : ∃ t, t < 4 ∧ t ∉ att) : ∃ j, j < 4 ∧ (start + j) % 4 ∉ att := by
  obtain ⟨t, ht4, htn⟩ := h
  refine ⟨(t + 4 - start) % 4, Nat.mod_lt _ (by omega), ?_⟩
  have heq : (start + (t + 4 - start) % 4) % 4 = t := by omega
  rw [heq]
  exact htn

/-- The fuelled rotation loop finds the first unattempted index cycling from
`start`, whenever one is reachable within the fuel. -/
lemma findNextTeam_go (att : List Nat) :
    ∀ (fuel start : Nat), start < 4 →
      (∃ j, j < fuel ∧ (start + j) % 4 ∉ att) →
      findNextTeam att fuel start ∉ att ∧
        ∃ k, k < fuel ∧ findNextTeam att fuel start = (start + k) % 4 ∧
          ∀ j < k, (start + j) % 4 ∈ att := by
  intro fuel
  induction fuel with
  | zero => intro start _ h; obtain ⟨j, hj, -⟩ := h; omega
  | succ fuel ih =>
    intro start hs h
    by_cases hmem : start ∈ att
    · have hstep : findNextTeam att (fuel + 1) start
          = findNextTeam att fuel ((start + 1) % 4) := by
        rw [findNextTeam, if_pos hmem]
      obtain ⟨j, hj, hjn⟩ := h
      have hj0 : j ≠ 0 := by
        intro h0
        rw [h0, Nat.add_zero, Nat.mod_eq_of_lt hs] at hjn
        exact hjn hmem
      have hrec : ∃ j, j < fuel ∧ ((start + 1) % 4 + j) % 4 ∉ att := by
        refine ⟨j - 1, by omega, ?_⟩
        rw [Nat.mod_add_mod]
        have : start + 1 + (j - 1) = start + j := by omega
        rw [this]
        exact hjn
      obtain ⟨hnot, k', hk', heq, hprev⟩ :=
        ih ((start + 1) % 4) (Nat.mod_lt _ (by omega)) hrec
      rw [hstep]
      refine ⟨hnot, k' + 1, by omega, ?_, ?_⟩
      · rw [heq, Nat.mod_add_mod]
        congr 1
        omega
      · intro j hj2
        cases j with
        | zero =>
          rw [Nat.add_zero, Nat.mod_eq_of_lt hs]
          exact hmem
        | succ j' =>
          have := hprev j' (by omega)
          rw [Nat.mod_add_mod] at this
          have harith : start + 1 + j' = start + (j' + 1) := by omega
          rw [harith] at this
          exact this
    · have hstep : findNextTeam att (fuel + 1) start = start := by
        rw [findNextTeam, if_neg hmem]
      rw [hstep]
      exact ⟨hmem, 0, by omega, by rw [Nat.add_zero, Nat.mod_eq_of_lt hs],
        fun j hj => absurd hj (by omega)⟩

/-- C3: a pass that does not exhaust the teams hands the word to the first
unattempted team cycling from `(currentTeam + 1) mod 4`, marks the question as
passed, resets the per-attempt state, and leaves the hint tiles untouched. -/
theorem passQuestion_rotates (s : GameState)
    (h : s.teamsAttempted.length + 1 < 4) :
    (passQuestion s).isPassedQuestion = true ∧
    (passQuestion s).guessedLetters = [] ∧
    (passQuestion s).revealedPositions = [] ∧
    (passQuestion s).wrongGuesses = 0 ∧
    (passQuestion s).phase = Phase.playing ∧
    (passQuestion s).defaultRevealedPositions = s.defaultRevealedPositions ∧
    (passQuestion s).currentTeam ∉ s.teamsAttempted ++ [s.currentTeam] ∧
    ∃ k, k < 4 ∧
      (passQuestion s).currentTeam = ((s.currentTeam + 1) % 4 + k) % 4 ∧
      ∀ j < k,
        ((s.currentTeam + 1) % 4 + j) % 4 ∈ s.teamsAttempted ++ [s.currentTeam] := by
  have hlen : (s.teamsAttempted ++ [s.currentTeam]).length < 4 := by
    simp only [List.length_append, List.length_cons, List.length_nil]
    omega
  have h4 : ¬ 4 ≤ (s.teamsAttempted ++ [s.currentTeam]).length := by omega
  have hfind := findNextTeam_go (s.teamsAttempted ++ [s.currentTeam]) 4
    ((s.currentTeam + 1) % 4) (Nat.mod_lt _ (by omega))
    (exists_shift _ _ (Nat.mod_lt _ (by omega)) (exists_unattempted _ hlen))
  have hct : (passQuestion s).currentTeam
      = findNextTeam (s.teamsAttempted ++ [s.currentTeam]) 4 ((s.currentTeam + 1) % 4) := by
    unfold passQuestion nextTeamOrWord
    rw [if_neg h4]
    simp [resetGame]
  refine ⟨?_, ?_, ?_, ?_, ?_, ?_,
      by rw [hct]; exact hfind.1, by rw [hct]; exact hfind.2⟩ <;>
    (unfold passQuestion nextTeamOrWord; rw [if_neg h4]; simp [resetGame])

/-- State `demoState` mid-rotation: teams 0 and 2 already failed, team 1 guessing. -/
def passedRoundState : GameState :=
  { demoState with teamsAttempted := [0, 2], currentTeam := 1 }

/-- Witness for C3 at a concrete input: when team 1 passes with teams 0 and 2
already attempted, play rotates (to team 3, skipping attempted team 2), the
question is marked passed, and the per-attempt state is reset. -/
theorem passQuestion_rotates_witness :
    (passQuestion passedRoundState).isPassedQuestion = true ∧
    (passQuestion passedRoundState).guessedLetters = [] ∧
    (passQuestion passedRoundState).revealedPositions = [] ∧
    (passQuestion passedRoundState).wrongGuesses = 0 ∧
    (passQuestion passedRoundState).phase = Phase.playing ∧
    (passQuestion passedRoundState).defaultRevealedPositions
        = passedRoundState.defaultRevealedPositions ∧
    (passQuestion passedRoundState).currentTeam
        ∉ passedRoundState.teamsAttempted ++ [passedRoundState.currentTeam] ∧
    ∃ k, k < 4 ∧
      (passQuestion passedRoundState).currentTeam
          = ((passedRoundState.currentTeam + 1) % 4 + k) % 4 ∧
      ∀ j < k, ((passedRoundState.currentTeam + 1) % 4 + j) % 4
          ∈ passedRoundState.teamsAttempted ++ [passedRoundState.currentTeam] :=
  passQuestion_rotates passedRoundState (by decide)

lemma genLoop_spec {L : Nat} (hL : 0 < L) (n : Nat) :
    ∀ (draws positions ps : List Nat),
      positions.length ≤ n → positions.Nodup → (∀ p ∈ positions, p < L) →
      genLoop L n draws positions = some ps →
      ps.length = n ∧ ps.Nodup ∧ ∀ p ∈ ps, p < L := by
  intro draws
  induction draws with
  | nil =>
    intro positions ps hle hnd hb h
    rw [genLoop] at h
    by_cases hdone : n ≤ positions.length
    · rw [if_pos hdone] at h
      obtain rfl := Option.some.injEq .. ▸ h
      exact ⟨by omega, hnd, hb⟩
    · rw [if_neg hdone] at h
      exact absurd h (by simp)
  | cons d rest ih =>
    intro positions ps hle hnd hb h
    rw [genLoop] at h
    by_cases hdone : n ≤ positions.length
    · rw [if_pos hdone] at h
      obtain rfl := Option.some.injEq .. ▸ h
      exact ⟨by omega, hnd, hb⟩
    · rw [if_neg hdone] at h
      by_cases hmem : d % L ∈ positions
      · rw [if_pos hmem] at h
        exact ih positions ps hle hnd hb h
      · rw [if_neg hmem] at h
        refine ih (positions ++ [d % L]) ps ?_ ?_ ?_ h
        · simp only [List.length_append, List.length_cons, List.length_nil]
          omega
        · rw [List.nodup_append]
          exact ⟨hnd, List.nodup_singleton _,
            by simp only [List.disjoint_singleton]; exact hmem⟩
        · intro p hp
          rcases List.mem_append.1 hp with hp1 | hp2
          · exact hb p hp1
          · rw [List.mem_singleton.1 hp2]
            exact Nat.mod_lt _ hL

/-- C4: whenever the hint-tile generation completes, it yields exactly
`min(4, floor(wordLength * 0.3))` pairwise-distinct positions, each inside the
word, stored sorted ascending. -/
theorem generateDefaultRevealedPositions_spec (wordLength : Nat)
    (draws ps : List Nat)
    (h : generateDefaultRevealedPositions wordLength draws = some ps) :
    ps.length = min 4 (wordLength * 3 / 10) ∧ ps.Nodup ∧
      (∀ p ∈ ps, p < wordLength) ∧ ps.Sorted (· ≤ ·) := by
  unfold generateDefaultRevealedPositions at h
  obtain ⟨ps₀, hgen, hsort⟩ := Option.map_eq_some'.1 h
  have hperm : List.Perm (ps₀.insertionSort (· ≤ ·)) ps₀ :=
    List.perm_insertionSort _ ps₀
  have hsorted : List.Sorted (· ≤ ·) (ps₀.insertionSort (· ≤ ·)) :=
    List.sorted_insertionSort _ ps₀
  rcases Nat.eq_zero_or_pos wordLength with hz | hpos
  · subst hz
    have : genLoop 0 (min 4 (0 * 3 / 10)) draws [] = some [] := by
      rw [genLoop.eq_def]
      simp
    rw [this] at hgen
    obtain rfl := Option.some.injEq .. ▸ hgen
    rw [← hsort]
    simp [List.insertionSort]
  · obtain ⟨hlen, hnd, hb⟩ := genLoop_spec hpos (min 4 (wordLength * 3 / 10))
      draws [] ps₀ (by simp) List.nodup_nil (by simp) hgen
    rw [← hsort]
    refine ⟨?_, ?_, ?_, hsorted⟩
    · rw [hperm.length_eq, hlen]
    · exact hperm.symm.nodup hnd
    · intro p hp
      exact hb p (hperm.mem_iff.1 hp)

/-- Witness for C4 at a concrete input: a 10-letter word draws
`min(4, 3) = 3` tiles; with random draws 7, 3, 7, 5 the duplicate 7 is
rejected and the stored tiles are 3, 5, 7. -/
theorem generateDefaultRevealedPositions_spec_witness :
    ([3, 5, 7] : List Nat).length = min 4 (10 * 3 / 10) ∧
    ([3, 5, 7] : List Nat).Nodup ∧
    (∀ p ∈ ([3, 5, 7] : List Nat), p < 10) ∧
    ([3, 5, 7] : List Nat).Sorted (· ≤ ·) :=
  generateDefaultRevealedPositions_spec 10 [7, 3, 7, 5] [3, 5, 7] (by decide)

/-- C5: when the guessed letter has at least one occurrence outside
`revealedPositions ∪ defaultRevealedPositions`, `guessLetter` appends exactly
one position to `revealedPositions` — the lowest-index unrevealed occurrence —
and reveals nothing else. -/
theorem guessLetter_reveals_lowest (s : GameState) (c : Char)
    (hphase : s.phase = Phase.playing) (p : Nat)
    (hp : p < (currentGameWord s).word.length)
    (hocc : (currentGameWord s).word.getD p ' ' = c.toUpper)
    (hpr : p ∉ s.revealedPositions)
    (hpd : p ∉ s.defaultRevealedPositions) :
    ∃ q,
      (guessLetter s c).revealedPositions = s.revealedPositions ++ [q] ∧
      q < (currentGameWord s).word.length ∧
      (currentGameWord s).word.getD q ' ' = c.toUpper ∧
      q ∉ s.revealedPositions ∧
      q ∉ s.defaultRevealedPositions ∧
      ∀ r < q, (currentGameWord s).word.getD r ' ' = c.toUpper →
        r ∈ s.revealedPositions ∨ r ∈ s.defaultRevealedPositions := by
  have hm : c.toUpper ∈ (currentGameWord s).word := by
    rw [← hocc, List.getD_eq_getElem _ _ hp]
    exact List.getElem_mem hp
  have hpm : p ∈ unrevealedOccurrences s c.toUpper :=
    mem_unrevealedOccurrences.2 ⟨hp, hocc, hpr, hpd⟩
  cases hu : unrevealedOccurrences s c.toUpper with
  | nil => rw [hu] at hpm; exact absurd hpm (List.not_mem_nil p)
  | cons q rest =>
    obtain ⟨⟨hqlen, hqocc, hqr, hqd⟩, hmin⟩ := unrevealedOccurrences_head hu
    refine ⟨q, ?_, hqlen, hqocc, hqr, hqd, hmin⟩
    rw [guessLetter_of_unrevealed s c q rest hm hu]
    by_cases hcomp : ((s.revealedPositions ++ [q]) ++ s.defaultRevealedPositions).dedup.length
        = (currentGameWord s).word.length
    · rw [if_pos hcomp]
    · rw [if_neg hcomp]

/-- Witness for C5 at a concrete input: on DOG with nothing revealed, guessing
lowercase g reveals exactly position 2. -/
theorem guessLetter_reveals_lowest_witness :
    ∃ q,
      (guessLetter demoState 'g').revealedPositions
          = demoState.revealedPositions ++ [q] ∧
      q < (currentGameWord demoState).word.length ∧
      (currentGameWord demoState).word.getD q ' ' = Char.toUpper 'g' ∧
      q ∉ demoState.revealedPositions ∧
      q ∉ demoState.defaultRevealedPositions ∧
      ∀ r < q, (currentGameWord demoState).word.getD r ' ' = Char.toUpper 'g' →
        r ∈ demoState.revealedPositions ∨ r ∈ demoState.defaultRevealedPositions :=
  guessLetter_reveals_lowest demoState 'g' (by decide) 2 (by decide) (by decide)
    (by decide) (by decide)

/-- C6: when the guessed letter occurs in the word but every occurrence is
already inside `revealedPositions ∪ defaultRevealedPositions`, the call counts
as a wrong guess — `wrongGuesses` is incremented, the auto-pass is scheduled
once the count reaches `maxWrongGuesses` — while the letter is still logged
and no position is revealed. -/
theorem guessLetter_all_shown_counts_wrong (s : GameState) (c : Char)
    (hphase : s.phase = Phase.playing)
    (hm : c.toUpper ∈ (currentGameWord s).word)
    (hall : ∀ i < (currentGameWord s).word.length,
      (currentGameWord s).word.getD i ' ' = c.toUpper →
      i ∈ s.revealedPositions ∨ i ∈ s.defaultRevealedPositions) :
    (guessLetter s c).wrongGuesses = s.wrongGuesses + 1 ∧
    (guessLetter s c).guessedLetters = s.guessedLetters ++ [c.toUpper] ∧
    (guessLetter s c).revealedPositions = s.revealedPositions ∧
    (guessLetter s c).pending =
      (if maxWrongGuesses ≤ s.wrongGuesses + 1
       then s.pending ++ [Timer.autoPass] else s.pending) ∧
    (guessLetter s c).phase = s.phase ∧
    (guessLetter s c).gameScores = s.gameScores := by
  have hu : unrevealedOccurrences s c.toUpper = [] := by
    cases hu : unrevealedOccurrences s c.toUpper with
    | nil => rfl
    | cons q rest =>
      obtain ⟨⟨hqlen, hqocc, hqr, hqd⟩, -⟩ := unrevealedOccurrences_head hu
      rcases hall q hqlen hqocc with hh | hh
      · exact absurd hh hqr
      · exact absurd hh hqd
  rw [guessLetter_of_all_revealed s c hm hu]
  refine ⟨?_, ?_, ?_, ?_, ?_, ?_⟩ <;> simp [wrongGuessStep]

/-- State `demoState` with every occurrence of O in DOG already shown as a hint
tile. -/
def oShownState : GameState :=
  { demoState with defaultRevealedPositions := [1] }

/-- Witness for C6 at a concrete input: guessing O on DOG when position 1 is a
hint tile counts as a wrong guess while still being logged. -/
theorem guessLetter_all_shown_counts_wrong_witness :
    (guessLetter oShownState 'O').wrongGuesses = oShownState.wrongGuesses + 1 ∧
    (guessLetter oShownState 'O').guessedLetters
        = oShownState.guessedLetters ++ [Char.toUpper 'O'] ∧
    (guessLetter oShownState 'O').revealedPositions
        = oShownState.revealedPositions ∧
    (guessLetter oShownState 'O').pending =
      (if maxWrongGuesses ≤ oShownState.wrongGuesses + 1
       then oShownState.pending ++ [Timer.autoPass] else oShownState.pending) ∧
    (guessLetter oShownState 'O').phase = oShownState.phase ∧
    (guessLetter oShownState 'O').gameScores = oShownState.gameScores :=
  guessLetter_all_shown_counts_wrong oShownState 'O' (by decide) (by decide)
    (by decide)

/-- C7 (code bug): `wrongGuesses` is NOT capped at `maxWrongGuesses = 4`.
Reaching 4 only schedules the auto-pass after a delay; the phase stays
`playing` and further guesses are still processed, so a fifth wrong guess in
the delay window pushes the counter to 5. -/
theorem wrongGuesses_can_exceed_max :
    lockedOutState.wrongGuesses = maxWrongGuesses ∧
    lockedOutState.phase = Phase.playing ∧
    (guessLetter lockedOutState 'Q').wrongGuesses = maxWrongGuesses + 1 := by
  decide

/-- C8 (code bug): delayed transitions are never cancelled.  After the
auto-pass is scheduled, a manual pass starts a fresh round for team 1 — yet
the stale auto-pass is still pending and, when it fires, it immediately ends
team 1's new turn; moreover winning during the delay window leaves two delayed
transitions pending in the same round. -/
theorem stale_timer_not_cancelled :
    lockedOutState.pending = [Timer.autoPass] ∧
    (passQuestion lockedOutState).phase = Phase.playing ∧
    (passQuestion lockedOutState).currentTeam = 1 ∧
    (passQuestion lockedOutState).pending = [Timer.autoPass] ∧
    (fireTimer [] (passQuestion lockedOutState) Timer.autoPass).teamsAttempted
        = [0, 1] ∧
    (fireTimer [] (passQuestion lockedOutState) Timer.autoPass).currentTeam = 2 ∧
    (guessLetter (guessLetter (guessLetter lockedOutState 'D') 'O') 'G').pending
        = [Timer.autoPass, Timer.advanceAfterWin] := by
  decide

/-- C9 counterexample: a digit guess is not a no-op — it is logged and counted
as a wrong guess. -/
theorem nonalpha_guess_not_noop :
    ('5').isAlpha = false ∧
    demoState.guessedLetters = [] ∧
    (guessLetter demoState '5').guessedLetters = ['5'] ∧
    demoState.wrongGuesses = 0 ∧
    (guessLetter demoState '5').wrongGuesses = 1 := by
  decide

/-- C9 amended: a non-empty non-alphabetic input character is processed like
any other guess — it is uppercased (fixed by `toUpperCase`), appended to
`guessedLetters`, and, because it cannot occur in the all-letters word, it
increments `wrongGuesses` exactly like a wrong guess (scheduling the auto-pass
when the budget is exhausted); `revealedPositions`, `phase` and the scores are
unchanged, and no error is raised. -/
theorem nonalpha_guess_counts_as_wrong (s : GameState) (c : Char)
    (hc : c.isAlpha = false)
    (hw : ∀ ch ∈ (currentGameWord s).word, ch.isAlpha = true) :
    (guessLetter s c).guessedLetters = s.guessedLetters ++ [c] ∧
    (guessLetter s c).wrongGuesses = s.wrongGuesses + 1 ∧
    (guessLetter s c).revealedPositions = s.revealedPositions ∧
    (guessLetter s c).phase = s.phase ∧
    (guessLetter s c).gameScores = s.gameScores ∧
    (guessLetter s c).pending =
      (if maxWrongGuesses ≤ s.wrongGuesses + 1
       then s.pending ++ [Timer.autoPass] else s.pending) := by
  have hup : c.toUpper = c := toUpper_eq_self_of_not_alpha c hc
  have hnm : c.toUpper ∉ (currentGameWord s).word :=
    toUpper_not_mem_of_not_alpha c _ hc hw
  rw [guessLetter_of_not_mem s c hnm, hup]
  refine ⟨?_, ?_, ?_, ?_, ?_, ?_⟩ <;> simp [wrongGuessStep]

/-- Witness for the amended C9 at a concrete input: guessing the digit 5 on
DOG logs it and counts it as the first wrong guess. -/
theorem nonalpha_guess_counts_as_wrong_witness :
    (guessLetter demoState '5').guessedLetters = demoState.guessedLetters ++ ['5'] ∧
    (guessLetter demoState '5').wrongGuesses = demoState.wrongGuesses + 1 ∧
    (guessLetter demoState '5').revealedPositions = demoState.revealedPositions ∧
    (guessLetter demoState '5').phase = demoState.phase ∧
    (guessLetter demoState '5').gameScores = demoState.gameScores ∧
    (guessLetter demoState '5').pending =
      (if maxWrongGuesses ≤ demoState.wrongGuesses + 1
       then demoState.pending ++ [Timer.autoPass] else demoState.pending) :=
  nonalpha_guess_counts_as_wrong demoState '5' (by decide) (by decide)

lemma guessLetter_congr (s : GameState) {c₁ c₂ : Char}
    (h : c₁.toUpper = c₂.toUpper) : guessLetter s c₁ = guessLetter s c₂ := by
  simp only [guessLetter, h]

/-- C10: `guessLetter` is case-insensitive — guessing a letter and guessing
its uppercased form produce exactly the same state, because the input is
uppercased before any comparison with the word. -/
theorem guessLetter_case_insensitive (s : GameState) (c : Char)
    (hc : c.isAlpha = true) :
    guessLetter s c = guessLetter s c.toUpper :=
  guessLetter_congr s (toUpper_toUpper c).symm

/-- Witness for C10 at a concrete input: guessing lowercase d on DOG equals
guessing uppercase D. -/
theorem guessLetter_case_insensitive_witness :
    guessLetter demoState 'd' = guessLetter demoState (Char.toUpper 'd') :=
  guessLetter_case_insensitive demoState 'd' (by decide)
